import Mathlib

/-!
# Sliding-window IMU statistics (`imu_analysis.cc`)

A shallow embedding of the window indexer, the per-window statistics kernel
`calculate_metrics` and the window loop of `main`.

Modelling conventions.

* `double` values are taken in a field `α` together with a square-root function
  `sqrt : α → α`; the numeric theorems instantiate `α := ℝ`, `sqrt := Real.sqrt`.
  Rounding is therefore not modelled.
* `int` / `long long` values are `Int`; none of the integer expressions of the
  program can overflow on an input that passes the size guard.
* `std::vector` is `List`.  The pointer `&all_samples[start_index]` handed to the
  kernel is the pair of the backing sequence and the offset; reading
  `window_data[i]` is `read_sample all_samples (start + i)`, which is `none`
  outside the sequence (undefined behaviour in the source).
* The constants `WINDOW_SIZE` and `STRIDE` are passed as parameters `W` and `s`
  to the embedded routines; `main` instantiates them with the program's values.
-/

namespace ImuAnalysis

/-! ## Constants and data model -/

/-- The constant `const int WINDOW_SIZE = 200;` (samples per window). -/
def WINDOW_SIZE : Int := 200

/-- The constant `const int STRIDE = 100;` (samples between window starts). -/
def STRIDE : Int := 100

/-- One row of the IMU stream: `struct IMUSample`. -/
structure IMUSample (α : Type) where
  ax : α
  ay : α
  az : α
  gx : α
  gy : α
  gz : α

/-- All metrics of one window: `struct WindowMetrics`. -/
structure WindowMetrics (α : Type) where
  mu : Fin 6 → α
  sigma : Fin 6 → α
  rms : Fin 6 → α
  energy_accel_mag : α

/-- The local accumulators of `calculate_metrics`:
`sums[6]`, `sum_sq[6]` and `sum_accel_mag_sq`. -/
structure Accumulators (α : Type) where
  sums : Fin 6 → α
  sum_sq : Fin 6 → α
  sum_accel_mag_sq : α

section Kernel

variable {α : Type} [Field α]

/-- The temporary `double data[6] = {s.ax, s.ay, s.az, s.gx, s.gy, s.gz}`. -/
def data (s : IMUSample α) : Fin 6 → α :=
  ![s.ax, s.ay, s.az, s.gx, s.gy, s.gz]

/-- The value-initialised record `WindowMetrics metrics = {0}`. -/
def zero_metrics : WindowMetrics α :=
  { mu := fun _ => 0, sigma := fun _ => 0, rms := fun _ => 0, energy_accel_mag := 0 }

/-- The accumulators before the sample loop: all `{0}`. -/
def zero_accumulators : Accumulators α :=
  { sums := fun _ => 0, sum_sq := fun _ => 0, sum_accel_mag_sq := 0 }

/-- Indexing into the sample sequence; `none` is the out-of-range branch. -/
def read_sample (all_samples : List (IMUSample α)) (idx : Int) : Option (IMUSample α) :=
  if 0 ≤ idx then all_samples[idx.toNat]? else none

/-- One iteration of the sample loop of `calculate_metrics` (lines 49-64):
the energy term and the six per-channel updates. -/
def accumulate_sample (acc : Accumulators α) (s : IMUSample α) : Accumulators α :=
  let accel_mag_sq := (s.ax * s.ax) + (s.ay * s.ay) + (s.az * s.az)
  { sum_accel_mag_sq := acc.sum_accel_mag_sq + accel_mag_sq
    sums := fun j => acc.sums j + data s j
    sum_sq := fun j => acc.sum_sq j + (data s j * data s j) }

/-- The loop `for (int i = 0; i < N; ++i)` of `calculate_metrics`, reading
`window_data[i]` at offset `start + i` of the backing sequence. -/
def accumulate_window (all_samples : List (IMUSample α)) (start N : Int) :
    Option (Accumulators α) :=
  (List.range N.toNat).foldlM
    (fun (acc : Accumulators α) (i : Nat) =>
      (read_sample all_samples (start + (i : Int))).map (accumulate_sample acc))
    zero_accumulators

/-- Step 3 of `calculate_metrics` (lines 68-81): energy, mean, RMS and sigma. -/
def finalize (sqrt : α → α) (acc : Accumulators α) (N : Int) : WindowMetrics α :=
  { energy_accel_mag := acc.sum_accel_mag_sq
    mu := fun j => acc.sums j / (N : α)
    rms := fun j => sqrt (acc.sum_sq j / (N : α))
    sigma := fun j =>
      let mean_sq := (acc.sums j / (N : α)) * (acc.sums j / (N : α))
      sqrt ((acc.sum_sq j / (N : α)) - mean_sq) }

/-- The kernel `WindowMetrics calculate_metrics(const IMUSample* window_data, int N)`
with `window_data = &all_samples[start]`. -/
def calculate_metrics (sqrt : α → α) (all_samples : List (IMUSample α)) (start N : Int) :
    Option (WindowMetrics α) :=
  (accumulate_window all_samples start N).map (fun acc => finalize sqrt acc N)

end Kernel

/-! ## Window indexer and the window loop of `main` -/

/-- The window count of `main` (lines 134-135):
`floor(static_cast<double>(total_samples - WINDOW_SIZE) / STRIDE) + 1`,
the quotient being taken exactly. -/
def num_windows (W s total_samples : Int) : Int :=
  Int.floor ((((total_samples - W : Int) : ℚ)) / (s : ℚ)) + 1

/-- The start offset of window `i`: `long long start_index = i * STRIDE;`. -/
def start_index (s i : Int) : Int := i * s

/-- How a run of `main` can stop without results. -/
inductive RunError where
  | insufficient_samples
  | out_of_range
  deriving DecidableEq, Repr

section Mapper

variable {α : Type} [Field α]

/-- The body of the window loop (lines 158-168): compute window `i` and store it
in slot `i` of the result buffer. -/
def work_unit (W s : Int) (sqrt : α → α) (all_samples : List (IMUSample α))
    (results : List (WindowMetrics α)) (i : Nat) : Option (List (WindowMetrics α)) :=
  match calculate_metrics sqrt all_samples (start_index s (i : Int)) W with
  | none => none
  | some computed_metrics =>
    if i < results.length then some (results.set i computed_metrics) else none

/-- The buffer `std::vector<WindowMetrics> results(num_windows)`. -/
def presized_results (n : Int) : List (WindowMetrics α) :=
  List.replicate n.toNat zero_metrics

/-- The window loop with its iterations executed one after another in the order
given by `order`. -/
def mapper_in_order (W s : Int) (sqrt : α → α) (all_samples : List (IMUSample α))
    (n : Int) (order : List Nat) : Option (List (WindowMetrics α)) :=
  order.foldlM (work_unit W s sqrt all_samples) (presized_results n)

/-- The window loop `for (long long i = 0; i < num_windows; ++i)` in ascending order. -/
def mapper (W s : Int) (sqrt : α → α) (all_samples : List (IMUSample α)) (n : Int) :
    Option (List (WindowMetrics α)) :=
  mapper_in_order W s sqrt all_samples n (List.range n.toNat)

/-- The computation of `main` after the samples are read, for window length `W`
and stride `s`: the size guard, the window count, the pre-sized buffer and the
window loop. -/
def run (W s : Int) (sqrt : α → α) (all_samples : List (IMUSample α)) :
    Except RunError (List (WindowMetrics α)) :=
  let total_samples : Int := all_samples.length
  if total_samples < W then
    Except.error RunError.insufficient_samples
  else
    match mapper W s sqrt all_samples (num_windows W s total_samples) with
    | none => Except.error RunError.out_of_range
    | some results => Except.ok results

/-- The program: `run` at the constants `WINDOW_SIZE` and `STRIDE`. -/
def main (sqrt : α → α) (all_samples : List (IMUSample α)) :
    Except RunError (List (WindowMetrics α)) :=
  run WINDOW_SIZE STRIDE sqrt all_samples

end Mapper

/-! ## Quantities named by the specification -/

section SpecQuantities

variable {α : Type} [Field α]

/-- The window of `N` consecutive samples that starts at offset `start`. -/
def window (all_samples : List (IMUSample α)) (start N : Int) : List (IMUSample α) :=
  (all_samples.drop start.toNat).take N.toNat

/-- The sum `S[j]` of channel `j` over the samples of a window. -/
def channel_sum (w : List (IMUSample α)) (j : Fin 6) : α :=
  (w.map (fun x => data x j)).sum

/-- The sum of squares `Q[j]` of channel `j` over the samples of a window. -/
def channel_sum_sq (w : List (IMUSample α)) (j : Fin 6) : α :=
  (w.map (fun x => data x j ^ 2)).sum

/-- The acceleration channels of a sample. -/
def accel (x : IMUSample α) : α × α × α := (x.ax, x.ay, x.az)

/-- The energy `Σ (ax² + ay² + az²)` over the samples of a window. -/
def accel_energy (w : List (IMUSample α)) : α :=
  (w.map (fun x => x.ax ^ 2 + x.ay ^ 2 + x.az ^ 2)).sum

/-- The sum of squared deviations `Σ (x_n[j] - c)²` of channel `j` from `c`. -/
def sum_sq_dev (w : List (IMUSample α)) (j : Fin 6) (c : α) : α :=
  (w.map (fun x => (data x j - c) ^ 2)).sum

/-- Three sample rows used to evaluate the embedding on a concrete input. -/
def example_samples (α : Type) [Field α] : List (IMUSample α) :=
  [⟨1, 2, 3, 4, 5, 6⟩, ⟨3, 0, 1, 0, 0, 0⟩, ⟨1, 2, 3, 4, 5, 6⟩]

/-- The sample with `ax = 1` and all other channels `0`. -/
def unit_ax_sample (α : Type) [Field α] : IMUSample α :=
  ⟨1, 0, 0, 0, 0, 0⟩

end SpecQuantities

/-! ## Window count -/

theorem num_windows_eq_div (W s T : Int) (hs : 0 < s) :
    num_windows W s T = (T - W) / s + 1 := by
  unfold num_windows
  obtain ⟨n, rfl⟩ := Int.eq_ofNat_of_zero_le hs.le
  rw [show ((n : Int) : ℚ) = ((n : ℕ) : ℚ) by norm_cast, Rat.floor_intCast_div_natCast]

theorem window_in_range (W s T : Int) (hs : 0 < s) (i : Int) (h0 : 0 ≤ i)
    (hi : i < num_windows W s T) :
    0 ≤ start_index s i ∧ start_index s i + W ≤ T := by
  rw [num_windows_eq_div W s T hs] at hi
  have h1 : i ≤ (T - W) / s := by omega
  have h2 : (T - W) / s * s ≤ T - W := Int.ediv_mul_le _ hs.ne'
  have h3 : i * s ≤ (T - W) / s * s := Int.mul_le_mul_of_nonneg_right h1 hs.le
  have h4 : 0 ≤ i * s := Int.mul_nonneg h0 hs.le
  unfold start_index
  constructor
  · exact h4
  · omega

theorem num_windows_pos (W s T : Int) (hs : 0 < s) (hT : W ≤ T) : 0 < num_windows W s T := by
  rw [num_windows_eq_div W s T hs]
  have : 0 ≤ (T - W) / s := Int.ediv_nonneg (by omega) hs.le
  omega

/-- C1: for window length `W > 0`, stride `s > 0` and `T ≥ W` samples the window
count computed by `main` is `floor((T - W) / s) + 1` in integer floor division;
the program's constants give 9 windows for 1000 samples and 1 window for 200. -/
theorem num_windows_formula (W s T : Int) (hW : 0 < W) (hs : 0 < s) (hT : W ≤ T) :
    num_windows W s T = (T - W) / s + 1 ∧
    num_windows W s T = Int.fdiv (T - W) s + 1 ∧
    (num_windows W s T).toNat = (T.toNat - W.toNat) / s.toNat + 1 ∧
    num_windows WINDOW_SIZE STRIDE 1000 = 9 ∧
    num_windows WINDOW_SIZE STRIDE 200 = 1 := by
  have h := num_windows_eq_div W s T hs
  refine ⟨h, ?_, ?_, ?_, ?_⟩
  · rw [h, Int.fdiv_eq_ediv _ hs.le]
  · rw [h]
    obtain ⟨w, rfl⟩ := Int.eq_ofNat_of_zero_le hW.le
    obtain ⟨t, rfl⟩ := Int.eq_ofNat_of_zero_le (hW.le.trans hT)
    obtain ⟨d, rfl⟩ := Int.eq_ofNat_of_zero_le hs.le
    have hwt : w ≤ t := by exact_mod_cast hT
    simp only [Int.toNat_ofNat]
    rw [← Int.ofNat_sub hwt]
    norm_cast
  · rw [num_windows_eq_div _ _ _ (by decide)]; decide
  · rw [num_windows_eq_div _ _ _ (by decide)]; decide

theorem num_windows_formula_witness :
    (0 : Int) < 200 ∧ (0 : Int) < 100 ∧ (200 : Int) ≤ 399 ∧
    num_windows 200 100 399 = (399 - 200) / 100 + 1 ∧
    num_windows 200 100 399 = Int.fdiv (399 - 200) 100 + 1 ∧
    (num_windows 200 100 399).toNat = ((399 : Int).toNat - (200 : Int).toNat) / (100 : Int).toNat + 1 ∧
    num_windows WINDOW_SIZE STRIDE 1000 = 9 ∧
    num_windows WINDOW_SIZE STRIDE 200 = 1 :=
  ⟨by decide, by decide, by decide,
    num_windows_formula 200 100 399 (by decide) (by decide) (by decide)⟩

/-! ## The sample loop of the kernel -/

theorem read_sample_natCast {α : Type} (all_samples : List (IMUSample α)) (k : Nat) :
    read_sample all_samples (k : Int) = all_samples[k]? := by
  simp [read_sample]

theorem window_natCast {α : Type} (all_samples : List (IMUSample α)) (st n : Nat) :
    window all_samples (st : Int) (n : Int) = (all_samples.drop st).take n := by
  simp [window]

section KernelLemmas

variable {α : Type} [Field α]

/-- The sample loop over `n` in-range samples folds `accumulate_sample` over the window. -/
theorem accumulate_window_nat (all_samples : List (IMUSample α)) (st : Nat) :
    ∀ n : Nat, st + n ≤ all_samples.length →
      accumulate_window all_samples (st : Int) (n : Int)
        = some (((all_samples.drop st).take n).foldl accumulate_sample zero_accumulators) := by
  intro n
  induction n with
  | zero => intro _; simp [accumulate_window]
  | succ n ih =>
    intro h
    have hn : st + n < all_samples.length := by omega
    have ih1 := ih (by omega)
    simp only [accumulate_window, Int.toNat_ofNat] at ih1 ⊢
    rw [List.range_succ, List.foldlM_append, ih1]
    have hread : read_sample all_samples ((st : Int) + (n : Int)) = some all_samples[st + n] := by
      rw [show ((st : Int) + (n : Int)) = ((st + n : Nat) : Int) by push_cast; rfl,
        read_sample_natCast, List.getElem?_eq_getElem hn]
    have htake : (all_samples.drop st).take (n + 1)
        = (all_samples.drop st).take n ++ [all_samples[st + n]] := by
      rw [List.take_succ, List.getElem?_drop, List.getElem?_eq_getElem hn]; rfl
    rw [htake, List.foldl_append]
    simp [hread]

theorem foldl_accumulate_sample_sums (w : List (IMUSample α)) (acc : Accumulators α) (j : Fin 6) :
    (w.foldl accumulate_sample acc).sums j = acc.sums j + channel_sum w j := by
  induction w generalizing acc with
  | nil => simp [channel_sum]
  | cons x w ih =>
    simp only [List.foldl_cons, ih, channel_sum, List.map_cons, List.sum_cons, accumulate_sample]
    ring

theorem foldl_accumulate_sample_sum_sq (w : List (IMUSample α)) (acc : Accumulators α)
    (j : Fin 6) :
    (w.foldl accumulate_sample acc).sum_sq j = acc.sum_sq j + channel_sum_sq w j := by
  induction w generalizing acc with
  | nil => simp [channel_sum_sq]
  | cons x w ih =>
    simp only [List.foldl_cons, ih, channel_sum_sq, List.map_cons, List.sum_cons,
      accumulate_sample]
    ring

theorem foldl_accumulate_sample_energy (w : List (IMUSample α)) (acc : Accumulators α) :
    (w.foldl accumulate_sample acc).sum_accel_mag_sq = acc.sum_accel_mag_sq + accel_energy w := by
  induction w generalizing acc with
  | nil => simp [accel_energy]
  | cons x w ih =>
    simp only [List.foldl_cons, ih, accel_energy, List.map_cons, List.sum_cons,
      accumulate_sample]
    ring

/-- On an in-range window the kernel returns the record built from the folded
accumulators. -/
theorem calculate_metrics_in_range (sqrt : α → α) (all_samples : List (IMUSample α))
    (start N : Int) (h0 : 0 ≤ start) (hN : 0 ≤ N) (hr : start + N ≤ (all_samples.length : Int)) :
    calculate_metrics sqrt all_samples start N
      = some (finalize sqrt
          ((window all_samples start N).foldl accumulate_sample zero_accumulators) N) := by
  obtain ⟨st, rfl⟩ := Int.eq_ofNat_of_zero_le h0
  obtain ⟨n, rfl⟩ := Int.eq_ofNat_of_zero_le hN
  have h : st + n ≤ all_samples.length := by exact_mod_cast hr
  simp only [calculate_metrics, accumulate_window_nat all_samples st n h, window_natCast,
    Option.map_some']

end KernelLemmas

/-! ## The window loop -/

theorem length_foldl_set {β : Type} (m : Nat → β) (l : List Nat) (r : List β) :
    (l.foldl (fun r i => r.set i (m i)) r).length = r.length := by
  induction l generalizing r with
  | nil => rfl
  | cons a l ih => simp [ih]

theorem getElem?_foldl_set {β : Type} (m : Nat → β) (l : List Nat) (r : List β) (k : Nat) :
    (l.foldl (fun r i => r.set i (m i)) r)[k]?
      = if k ∈ l ∧ k < r.length then some (m k) else r[k]? := by
  induction l generalizing r with
  | nil => simp
  | cons a l ih =>
    rw [List.foldl_cons, ih, List.length_set, List.getElem?_set]
    by_cases hk : k < r.length
    · by_cases hl : k ∈ l
      · simp [hk, hl]
      · by_cases ha : a = k
        · subst ha; simp [hk, hl]
        · have ha2 : ¬ k = a := fun h => ha h.symm
          simp [hk, hl, ha, ha2]
    · have hnone : r[k]? = none := List.getElem?_eq_none (by omega)
      by_cases ha : a = k
      · subst ha; simp [hk, hnone]
      · simp [hk, ha]

theorem foldlM_option_eq_foldl {β γ : Type} (f : β → γ → Option β) (l : List γ)
    (b : Option β) :
    b.bind (fun r => l.foldlM f r) = l.foldl (fun acc i => acc.bind (fun r => f r i)) b := by
  induction l generalizing b with
  | nil => cases b <;> rfl
  | cons a l ih =>
    rw [List.foldl_cons, ← ih]
    cases b with
    | none => rfl
    | some r => simp [List.foldlM_cons]

section MapperLemmas

variable {α : Type} [Field α]

/-- Two work units commute: they write the values of their own windows to their
own slots. -/
theorem work_unit_comm (W s : Int) (sqrt : α → α) (all_samples : List (IMUSample α))
    (z : Option (List (WindowMetrics α))) (i j : Nat) :
    (z.bind (fun r => work_unit W s sqrt all_samples r i)).bind
        (fun r => work_unit W s sqrt all_samples r j)
      = (z.bind (fun r => work_unit W s sqrt all_samples r j)).bind
        (fun r => work_unit W s sqrt all_samples r i) := by
  cases z with
  | none => rfl
  | some r =>
    by_cases hij : i = j
    · subst hij; rfl
    · simp only [Option.some_bind, work_unit]
      cases calculate_metrics sqrt all_samples (start_index s (i : Int)) W with
      | none =>
        cases calculate_metrics sqrt all_samples (start_index s (j : Int)) W with
        | none => rfl
        | some mj => by_cases hj : j < r.length <;> simp [hj]
      | some mi =>
        cases calculate_metrics sqrt all_samples (start_index s (j : Int)) W with
        | none => by_cases hi : i < r.length <;> simp [hi]
        | some mj =>
          by_cases hi : i < r.length <;> by_cases hj : j < r.length <;>
            simp [hi, hj, List.set_comm _ _ _ hij]

/-- The window loop over any list of ordinals whose windows are all computable
and whose slots exist performs exactly the corresponding writes. -/
theorem foldlM_work_unit (W s : Int) (sqrt : α → α) (all_samples : List (IMUSample α))
    (m : Nat → WindowMetrics α) (l : List Nat) (r : List (WindowMetrics α))
    (h : ∀ i ∈ l, i < r.length ∧
      calculate_metrics sqrt all_samples (start_index s (i : Int)) W = some (m i)) :
    l.foldlM (work_unit W s sqrt all_samples) r
      = some (l.foldl (fun r i => r.set i (m i)) r) := by
  induction l generalizing r with
  | nil => rfl
  | cons a l ih =>
    have ha := h a (List.mem_cons_self a l)
    have hstep : work_unit W s sqrt all_samples r a = some (r.set a (m a)) := by
      simp [work_unit, ha.1, ha.2]
    rw [List.foldlM_cons, hstep]
    simp only [Option.some_bind, Option.bind_eq_bind, List.foldl_cons]
    apply ih
    intro i hi
    have := h i (List.mem_cons_of_mem a hi)
    simpa using this

/-- With enough samples for one window, the ascending window loop succeeds and
slot `i` of its result holds the kernel's record for the window at `i * s`. -/
theorem mapper_eq_some (W s : Int) (sqrt : α → α) (all_samples : List (IMUSample α))
    (hW : 0 ≤ W) (hs : 0 < s) :
    ∃ results, mapper W s sqrt all_samples (num_windows W s all_samples.length) = some results ∧
      results.length = (num_windows W s all_samples.length).toNat ∧
      ∀ i : Nat, i < (num_windows W s all_samples.length).toNat →
        calculate_metrics sqrt all_samples (start_index s (i : Int)) W = results[i]? ∧
        results[i]? = some (finalize sqrt
          ((window all_samples (start_index s (i : Int)) W).foldl accumulate_sample
            zero_accumulators) W) := by
  set n := num_windows W s all_samples.length with hn
  have hcalc : ∀ i : Nat, i < n.toNat →
      calculate_metrics sqrt all_samples (start_index s (i : Int)) W
        = some (finalize sqrt
          ((window all_samples (start_index s (i : Int)) W).foldl accumulate_sample
            zero_accumulators) W) := by
    intro i hi
    have hi2 : (i : Int) < n := by omega
    obtain ⟨h1, h2⟩ := window_in_range W s all_samples.length hs (i : Int) (by omega) hi2
    exact calculate_metrics_in_range sqrt all_samples _ W h1 hW h2
  have hfold := foldlM_work_unit W s sqrt all_samples
    (fun i => finalize sqrt
      ((window all_samples (start_index s (i : Int)) W).foldl accumulate_sample
        zero_accumulators) W)
    (List.range n.toNat) (presized_results n)
    (by
      intro i hi
      rw [List.mem_range] at hi
      exact ⟨by simpa [presized_results] using hi, hcalc i hi⟩)
  refine ⟨_, hfold, ?_, ?_⟩
  · rw [length_foldl_set]; simp [presized_results]
  · intro i hi
    rw [getElem?_foldl_set, hcalc i hi]
    simp [presized_results, hi]

theorem run_eq_ok (W s : Int) (sqrt : α → α) (all_samples : List (IMUSample α))
    (hW : 0 ≤ W) (hs : 0 < s) (hT : W ≤ (all_samples.length : Int)) :
    ∃ results, run W s sqrt all_samples = Except.ok results ∧
      mapper W s sqrt all_samples (num_windows W s all_samples.length) = some results := by
  obtain ⟨results, h, -, -⟩ := mapper_eq_some W s sqrt all_samples hW hs
  refine ⟨results, ?_, h⟩
  simp only [run, not_lt.mpr hT, if_false, h]

end MapperLemmas

theorem window_window {α : Type} (all_samples : List (IMUSample α)) (start N : Int)
    (h0 : 0 ≤ start) (hN : 0 ≤ N) (hr : start + N ≤ (all_samples.length : Int)) :
    ((window all_samples start N).length : Int) = N ∧
    window (window all_samples start N) 0 N = window all_samples start N := by
  have hlen : (window all_samples start N).length = N.toNat := by
    simp only [window, List.length_take, List.length_drop]
    omega
  constructor
  · rw [hlen]; omega
  · show List.take N.toNat (List.drop (0 : Int).toNat (window all_samples start N)) = _
    rw [Int.toNat_zero, List.drop_zero]
    exact List.take_of_length_le hlen.le

section MapperTheorems

variable {α : Type} [Field α]

theorem calculate_metrics_window (sqrt : α → α) (all_samples : List (IMUSample α))
    (start N : Int) (h0 : 0 ≤ start) (hN : 0 ≤ N) (hr : start + N ≤ (all_samples.length : Int)) :
    calculate_metrics sqrt (window all_samples start N) 0 N
      = calculate_metrics sqrt all_samples start N := by
  obtain ⟨h1, h2⟩ := window_window all_samples start N h0 hN hr
  rw [calculate_metrics_in_range sqrt all_samples start N h0 hN hr,
    calculate_metrics_in_range sqrt (window all_samples start N) 0 N le_rfl hN
      (by rw [h1, zero_add]), h2]

/-- C2: for `T ≥ W` samples and every ordinal `i` with `0 ≤ i < num_windows`, the
start offset of window `i` is the non-negative multiple `i * s` of the stride and
`i * s + W ≤ T`; each of the `W` reads of the kernel is inside the sample
sequence, the kernel returns a record and the run never ends out of range. -/
theorem window_reads_in_range (W s : Int) (hW : 0 < W) (hs : 0 < s)
    (all_samples : List (IMUSample α)) (hT : W ≤ (all_samples.length : Int))
    (i : Int) (h0 : 0 ≤ i) (hi : i < num_windows W s all_samples.length) :
    start_index s i = i * s ∧ 0 ≤ start_index s i ∧
    start_index s i + W ≤ (all_samples.length : Int) ∧
    (∀ k : Int, 0 ≤ k → k < W → ∃ x, read_sample all_samples (start_index s i + k) = some x) ∧
    (∀ sqrt : α → α, ∃ m, calculate_metrics sqrt all_samples (start_index s i) W = some m) ∧
    (∀ sqrt : α → α, run W s sqrt all_samples ≠ Except.error RunError.out_of_range) := by
  obtain ⟨h1, h2⟩ := window_in_range W s all_samples.length hs i h0 hi
  refine ⟨rfl, h1, h2, ?_, ?_, ?_⟩
  · intro k hk0 hkW
    have hlt : (start_index s i + k).toNat < all_samples.length := by omega
    exact ⟨all_samples[(start_index s i + k).toNat], by
      simp only [read_sample, if_pos (show 0 ≤ start_index s i + k by omega)]
      exact List.getElem?_eq_getElem hlt⟩
  · intro sqrt
    exact ⟨_, calculate_metrics_in_range sqrt all_samples _ W h1 hW.le h2⟩
  · intro sqrt
    obtain ⟨results, hrun, -⟩ := run_eq_ok W s sqrt all_samples hW.le hs hT
    rw [hrun]
    exact fun h => nomatch h

theorem window_reads_in_range_witness :
    (0 : Int) < 2 ∧ (0 : Int) < 1 ∧ (2 : Int) ≤ ((example_samples ℚ).length : Int) ∧
    (0 : Int) ≤ 1 ∧ (1 : Int) < num_windows 2 1 (example_samples ℚ).length ∧
    (start_index 1 1 = 1 * 1 ∧ 0 ≤ start_index 1 1 ∧
    start_index 1 1 + 2 ≤ ((example_samples ℚ).length : Int) ∧
    (∀ k : Int, 0 ≤ k → k < 2 →
      ∃ x, read_sample (example_samples ℚ) (start_index 1 1 + k) = some x) ∧
    (∀ sqrt : ℚ → ℚ, ∃ m, calculate_metrics sqrt (example_samples ℚ) (start_index 1 1) 2 = some m) ∧
    (∀ sqrt : ℚ → ℚ, run 2 1 sqrt (example_samples ℚ) ≠ Except.error RunError.out_of_range)) :=
  have hi : (1 : Int) < num_windows 2 1 (example_samples ℚ).length := by
    rw [num_windows_eq_div _ _ _ (by decide)]; decide
  ⟨by decide, by decide, by decide, by decide, hi,
    window_reads_in_range 2 1 (by decide) (by decide) (example_samples ℚ) (by decide) 1
      (by decide) hi⟩

/-- C3: the run stops with the precondition error, and yields no metrics, exactly
when `total_samples < window_length`; otherwise it succeeds.  With the program's
constants 199 samples fail and 200 samples succeed. -/
theorem precondition_error_iff (W s : Int) (hW : 0 < W) (hs : 0 < s) (sqrt : α → α)
    (all_samples : List (IMUSample α)) :
    (run W s sqrt all_samples = Except.error RunError.insufficient_samples
      ↔ (all_samples.length : Int) < W) ∧
    ((all_samples.length : Int) < W → ∀ results, run W s sqrt all_samples ≠ Except.ok results) ∧
    (W ≤ (all_samples.length : Int) → ∃ results, run W s sqrt all_samples = Except.ok results) ∧
    (all_samples.length = 199 →
      main sqrt all_samples = Except.error RunError.insufficient_samples) ∧
    (all_samples.length = 200 → ∃ results, main sqrt all_samples = Except.ok results) := by
  have hfail : (all_samples.length : Int) < W →
      run W s sqrt all_samples = Except.error RunError.insufficient_samples := by
    intro h
    simp only [run, h, if_true]
  have hok : W ≤ (all_samples.length : Int) →
      ∃ results, run W s sqrt all_samples = Except.ok results := by
    intro h
    obtain ⟨results, hrun, -⟩ := run_eq_ok W s sqrt all_samples hW.le hs h
    exact ⟨results, hrun⟩
  refine ⟨⟨?_, hfail⟩, ?_, hok, ?_, ?_⟩
  · intro h
    by_contra hlt
    obtain ⟨results, hrun⟩ := hok (not_lt.mp hlt)
    rw [hrun] at h
    exact nomatch h
  · intro h results hrun
    rw [hfail h] at hrun
    exact nomatch hrun
  · intro h
    simp only [main, run, WINDOW_SIZE, h]
    rfl
  · intro h
    obtain ⟨results, hrun, -⟩ := run_eq_ok WINDOW_SIZE STRIDE sqrt all_samples (by decide)
      (by decide) (by rw [h]; decide)
    exact ⟨results, hrun⟩

theorem precondition_error_iff_witness :
    (0 : Int) < 2 ∧ (0 : Int) < 1 ∧
    ((run 2 1 id (example_samples ℚ) = Except.error RunError.insufficient_samples
      ↔ ((example_samples ℚ).length : Int) < 2) ∧
    (((example_samples ℚ).length : Int) < 2 →
      ∀ results, run 2 1 id (example_samples ℚ) ≠ Except.ok results) ∧
    ((2 : Int) ≤ ((example_samples ℚ).length : Int) →
      ∃ results, run 2 1 id (example_samples ℚ) = Except.ok results) ∧
    ((example_samples ℚ).length = 199 →
      main id (example_samples ℚ) = Except.error RunError.insufficient_samples) ∧
    ((example_samples ℚ).length = 200 →
      ∃ results, main id (example_samples ℚ) = Except.ok results)) :=
  ⟨by decide, by decide,
    precondition_error_iff 2 1 (by decide) (by decide) id (example_samples ℚ)⟩

/-- C6: for `T ≥ W` samples the run returns exactly `num_windows` records; record
`i` is the kernel's result on the `W` consecutive samples starting at `i * s`,
so it is determined by those samples alone: a second input whose window `i`
holds the same samples gets the same record `i`. -/
theorem mapper_output_entries (W s : Int) (hW : 0 < W) (hs : 0 < s) (sqrt : α → α)
    (all_samples : List (IMUSample α)) (hT : W ≤ (all_samples.length : Int)) :
    ∃ results, run W s sqrt all_samples = Except.ok results ∧
      (results.length : Int) = num_windows W s all_samples.length ∧
      (∀ i : Nat, (i : Int) < num_windows W s all_samples.length →
        (∃ m, results[i]? = some m) ∧
        results[i]? = calculate_metrics sqrt all_samples ((i : Int) * s) W ∧
        results[i]? = calculate_metrics sqrt (window all_samples ((i : Int) * s) W) 0 W) ∧
      (∀ (other : List (IMUSample α)) (results2 : List (WindowMetrics α)) (i : Nat),
        run W s sqrt other = Except.ok results2 →
        (i : Int) < num_windows W s all_samples.length →
        (i : Int) < num_windows W s other.length →
        window all_samples ((i : Int) * s) W = window other ((i : Int) * s) W →
        results[i]? = results2[i]?) := by
  have key : ∀ (l : List (IMUSample α)), W ≤ (l.length : Int) →
      ∃ results, run W s sqrt l = Except.ok results ∧
        (results.length : Int) = num_windows W s l.length ∧
        (∀ i : Nat, (i : Int) < num_windows W s l.length →
          (∃ m, results[i]? = some m) ∧
          results[i]? = calculate_metrics sqrt l ((i : Int) * s) W ∧
          results[i]? = calculate_metrics sqrt (window l ((i : Int) * s) W) 0 W) := by
    intro l hl
    obtain ⟨results, hrun, hmap⟩ := run_eq_ok W s sqrt l hW.le hs hl
    obtain ⟨r2, hmap2, hlen, hent⟩ := mapper_eq_some W s sqrt l hW.le hs
    have hr : r2 = results := by
      rw [hmap2] at hmap
      exact Option.some.inj hmap
    subst hr
    have hpos := num_windows_pos W s l.length hs hl
    refine ⟨r2, hrun, by rw [hlen]; omega, ?_⟩
    intro i hi
    obtain ⟨h1, h2⟩ := hent i (by omega)
    obtain ⟨h3, h4⟩ := window_in_range W s l.length hs (i : Int) (by omega) hi
    refine ⟨⟨_, h2⟩, h1.symm, ?_⟩
    show r2[i]? = calculate_metrics sqrt (window l (start_index s (i : Int)) W) 0 W
    rw [calculate_metrics_window sqrt l _ W h3 hW.le h4]
    exact h1.symm
  obtain ⟨results, hrun, hlen, hent⟩ := key all_samples hT
  refine ⟨results, hrun, hlen, hent, ?_⟩
  intro other results2 i hrun2 hi hi2 hwin
  have hT2 : W ≤ (other.length : Int) := by
    by_contra hlt
    have hlt2 : (other.length : Int) < W := not_le.mp hlt
    simp only [run, hlt2, if_true] at hrun2
    exact nomatch hrun2
  obtain ⟨r2, hr2, -, hent2⟩ := key other hT2
  have hr : r2 = results2 := by
    rw [hr2] at hrun2
    exact Except.ok.inj hrun2
  subst hr
  rw [(hent i hi).2.2, (hent2 i hi2).2.2, hwin]

theorem mapper_output_entries_witness :
    (0 : Int) < 2 ∧ (0 : Int) < 1 ∧ (2 : Int) ≤ ((example_samples ℚ).length : Int) ∧
    ∃ results, run 2 1 id (example_samples ℚ) = Except.ok results ∧
      (results.length : Int) = num_windows 2 1 (example_samples ℚ).length ∧
      (∀ i : Nat, (i : Int) < num_windows 2 1 (example_samples ℚ).length →
        (∃ m, results[i]? = some m) ∧
        results[i]? = calculate_metrics id (example_samples ℚ) ((i : Int) * 1) 2 ∧
        results[i]? = calculate_metrics id (window (example_samples ℚ) ((i : Int) * 1) 2) 0 2) ∧
      (∀ (other : List (IMUSample ℚ)) (results2 : List (WindowMetrics ℚ)) (i : Nat),
        run 2 1 id other = Except.ok results2 →
        (i : Int) < num_windows 2 1 (example_samples ℚ).length →
        (i : Int) < num_windows 2 1 other.length →
        window (example_samples ℚ) ((i : Int) * 1) 2 = window other ((i : Int) * 1) 2 →
        results[i]? = results2[i]?) :=
  ⟨by decide, by decide, by decide,
    mapper_output_entries 2 1 (by decide) (by decide) id (example_samples ℚ) (by decide)⟩

/-- C7: executing the work units of the window loop in any permutation of the
ordinals `0 .. num_windows - 1` gives the same output as the ascending loop, for
every input; any two such execution orders agree. -/
theorem mapper_order_independent (W s : Int) (sqrt : α → α)
    (all_samples : List (IMUSample α)) (n : Int) (order : List Nat)
    (h : order.Perm (List.range n.toNat)) :
    mapper_in_order W s sqrt all_samples n order = mapper W s sqrt all_samples n ∧
    ∀ order2 : List Nat, order2.Perm (List.range n.toNat) →
      mapper_in_order W s sqrt all_samples n order2
        = mapper_in_order W s sqrt all_samples n order := by
  have key : ∀ l1 l2 : List Nat, l1.Perm l2 →
      mapper_in_order W s sqrt all_samples n l1 = mapper_in_order W s sqrt all_samples n l2 := by
    intro l1 l2 hp
    have e1 := foldlM_option_eq_foldl (work_unit W s sqrt all_samples) l1
      (some (presized_results n))
    have e2 := foldlM_option_eq_foldl (work_unit W s sqrt all_samples) l2
      (some (presized_results n))
    simp only [Option.some_bind] at e1 e2
    unfold mapper_in_order
    rw [e1, e2]
    exact List.Perm.foldl_eq' hp
      (fun x _ y _ z => work_unit_comm W s sqrt all_samples z x y) _
  exact ⟨key _ _ h, fun order2 h2 => key _ _ (h2.trans h.symm)⟩

theorem mapper_order_independent_witness :
    [2, 0, 1].Perm (List.range (3 : Int).toNat) ∧
    (mapper_in_order 1 1 id (example_samples ℚ) 3 [2, 0, 1]
        = mapper 1 1 id (example_samples ℚ) 3 ∧
      ∀ order2 : List Nat, order2.Perm (List.range (3 : Int).toNat) →
        mapper_in_order 1 1 id (example_samples ℚ) 3 order2
          = mapper_in_order 1 1 id (example_samples ℚ) 3 [2, 0, 1]) :=
  ⟨by decide, mapper_order_independent 1 1 id (example_samples ℚ) 3 [2, 0, 1] (by decide)⟩

end MapperTheorems

/-! ## The statistics of one window -/

section KernelClosedForm

variable {α : Type} [Field α]

/-- On an in-range window the kernel returns the record whose fields are the
closed-form statistics of the window's samples. -/
theorem calculate_metrics_closed_form (sqrt : α → α) (all_samples : List (IMUSample α))
    (start N : Int) (h0 : 0 ≤ start) (hN : 0 ≤ N) (hr : start + N ≤ (all_samples.length : Int)) :
    ∃ m, calculate_metrics sqrt all_samples start N = some m ∧
      (∀ j, m.mu j = channel_sum (window all_samples start N) j / (N : α)) ∧
      (∀ j, m.rms j = sqrt (channel_sum_sq (window all_samples start N) j / (N : α))) ∧
      (∀ j, m.sigma j = sqrt (channel_sum_sq (window all_samples start N) j / (N : α)
        - (channel_sum (window all_samples start N) j / (N : α)) ^ 2)) ∧
      m.energy_accel_mag = accel_energy (window all_samples start N) := by
  refine ⟨_, calculate_metrics_in_range sqrt all_samples start N h0 hN hr, ?_, ?_, ?_, ?_⟩
  · intro j
    simp [finalize, foldl_accumulate_sample_sums, zero_accumulators]
  · intro j
    simp [finalize, foldl_accumulate_sample_sum_sq, zero_accumulators]
  · intro j
    simp [finalize, foldl_accumulate_sample_sums, foldl_accumulate_sample_sum_sq,
      zero_accumulators, sq]
  · simp [finalize, foldl_accumulate_sample_energy, zero_accumulators]

theorem sum_sq_dev_expand (w : List (IMUSample α)) (j : Fin 6) (c : α) :
    sum_sq_dev w j c
      = channel_sum_sq w j - 2 * c * channel_sum w j + (w.length : α) * c ^ 2 := by
  induction w with
  | nil => simp [sum_sq_dev, channel_sum, channel_sum_sq]
  | cons x w ih =>
    simp only [sum_sq_dev, channel_sum, channel_sum_sq, List.map_cons, List.sum_cons,
      List.length_cons, Nat.cast_succ] at ih ⊢
    rw [ih]
    ring

theorem channel_sum_of_constant (w : List (IMUSample α)) (j : Fin 6) (v : α)
    (h : ∀ x ∈ w, data x j = v) : channel_sum w j = (w.length : α) * v := by
  induction w with
  | nil => simp [channel_sum]
  | cons x w ih =>
    have hx := h x (List.mem_cons_self x w)
    have hw := ih (fun y hy => h y (List.mem_cons_of_mem x hy))
    simp only [channel_sum, List.map_cons, List.sum_cons, List.length_cons,
      Nat.cast_succ] at hw ⊢
    rw [hw, hx]
    ring

theorem accel_energy_eq_of_accel (w1 w2 : List (IMUSample α))
    (h : w1.map accel = w2.map accel) : accel_energy w1 = accel_energy w2 := by
  have e : ∀ w : List (IMUSample α),
      accel_energy w = ((w.map accel).map (fun p => p.1 ^ 2 + p.2.1 ^ 2 + p.2.2 ^ 2)).sum := by
    intro w
    simp [accel_energy, accel, List.map_map, Function.comp_def]
  rw [e w1, e w2, h]

theorem accel_energy_of_zero (w : List (IMUSample α))
    (h : ∀ x ∈ w, x.ax = 0 ∧ x.ay = 0 ∧ x.az = 0) : accel_energy w = 0 := by
  induction w with
  | nil => simp [accel_energy]
  | cons x w ih =>
    obtain ⟨h1, h2, h3⟩ := h x (List.mem_cons_self x w)
    have hw := ih (fun y hy => h y (List.mem_cons_of_mem x hy))
    simp only [accel_energy, List.map_cons, List.sum_cons] at hw ⊢
    rw [hw, h1, h2, h3]
    simp

end KernelClosedForm

theorem sum_sq_dev_nonneg (w : List (IMUSample ℝ)) (j : Fin 6) (c : ℝ) :
    0 ≤ sum_sq_dev w j c := by
  unfold sum_sq_dev
  apply List.sum_nonneg
  intro y hy
  obtain ⟨x, -, rfl⟩ := List.mem_map.mp hy
  exact sq_nonneg _

theorem sum_sq_dev_eq_zero_iff (w : List (IMUSample ℝ)) (j : Fin 6) (c : ℝ) :
    sum_sq_dev w j c = 0 ↔ ∀ x ∈ w, data x j = c := by
  induction w with
  | nil => simp [sum_sq_dev]
  | cons x w ih =>
    have hw := sum_sq_dev_nonneg w j c
    have hx : 0 ≤ (data x j - c) ^ 2 := sq_nonneg _
    have hcons : sum_sq_dev (x :: w) j c = (data x j - c) ^ 2 + sum_sq_dev w j c := by
      simp [sum_sq_dev]
    rw [hcons, add_eq_zero_iff_of_nonneg hx hw, ih, List.forall_mem_cons, sq_eq_zero_iff,
      sub_eq_zero]

/-- The variance term of the kernel is the mean squared deviation from the mean. -/
theorem variance_identity (w : List (IMUSample ℝ)) (j : Fin 6) (hw : 0 < w.length) :
    channel_sum_sq w j / (w.length : ℝ) - (channel_sum w j / (w.length : ℝ)) ^ 2
      = sum_sq_dev w j (channel_sum w j / (w.length : ℝ)) / (w.length : ℝ) := by
  have hne : (w.length : ℝ) ≠ 0 := by exact_mod_cast hw.ne'
  rw [sum_sq_dev_expand]
  field_simp
  ring

/-- The kernel on an in-range real window of `N > 0` samples: the record it
returns, with the mean, the mean of squares and the variance term of every
channel expressed through the window's samples. -/
theorem calculate_metrics_real (all_samples : List (IMUSample ℝ)) (start N : Int)
    (h0 : 0 ≤ start) (hN : 0 < N) (hr : start + N ≤ (all_samples.length : Int)) :
    ∃ m, calculate_metrics Real.sqrt all_samples start N = some m ∧
      0 < (window all_samples start N).length ∧
      (N : ℝ) = ((window all_samples start N).length : ℝ) ∧
      ∀ j, m.mu j = channel_sum (window all_samples start N) j / (N : ℝ) ∧
        m.rms j = Real.sqrt (channel_sum_sq (window all_samples start N) j / (N : ℝ)) ∧
        m.sigma j = Real.sqrt (channel_sum_sq (window all_samples start N) j / (N : ℝ)
          - (m.mu j) ^ 2) ∧
        channel_sum_sq (window all_samples start N) j / (N : ℝ) - (m.mu j) ^ 2
          = sum_sq_dev (window all_samples start N) j (m.mu j) / (N : ℝ) ∧
        0 ≤ channel_sum_sq (window all_samples start N) j / (N : ℝ) - (m.mu j) ^ 2 ∧
        (m.rms j) ^ 2 = channel_sum_sq (window all_samples start N) j / (N : ℝ) := by
  obtain ⟨m, hm, hmu, hrms, hsig, -⟩ :=
    calculate_metrics_closed_form Real.sqrt all_samples start N h0 hN.le hr
  obtain ⟨hlen, -⟩ := window_window all_samples start N h0 hN.le hr
  have hpos : 0 < (window all_samples start N).length := by omega
  have hcast : (N : ℝ) = ((window all_samples start N).length : ℝ) := by
    have h := congrArg (Int.cast : Int → ℝ) hlen
    rw [← h]; norm_cast
  have hNpos : (0 : ℝ) < (N : ℝ) := by exact_mod_cast hN
  refine ⟨m, hm, hpos, hcast, ?_⟩
  intro j
  have hvar : channel_sum_sq (window all_samples start N) j / (N : ℝ) - (m.mu j) ^ 2
      = sum_sq_dev (window all_samples start N) j (m.mu j) / (N : ℝ) := by
    rw [hmu j, hcast]
    exact variance_identity _ j hpos
  have hnn : 0 ≤ channel_sum_sq (window all_samples start N) j / (N : ℝ) - (m.mu j) ^ 2 := by
    rw [hvar]
    exact div_nonneg (sum_sq_dev_nonneg _ _ _) hNpos.le
  have hq : 0 ≤ channel_sum_sq (window all_samples start N) j / (N : ℝ) := by
    have := sq_nonneg (m.mu j)
    linarith
  refine ⟨hmu j, hrms j, ?_, hvar, hnn, ?_⟩
  · rw [hsig j, hmu j]
  · rw [hrms j, Real.sq_sqrt hq]

/-- C4: on a window of `N > 0` samples `calculate_metrics` returns, for every
channel `j` (order ax, ay, az, gx, gy, gz), `mean[j] = S[j] / N`,
`rms[j] = sqrt (Q[j] / N)` and `stddev[j] = sqrt (Q[j] / N - mean[j]^2)`, with
`S[j]` the sum and `Q[j]` the sum of squares of channel `j` over the window. -/
theorem metrics_formulas (all_samples : List (IMUSample ℝ)) (start N : Int)
    (h0 : 0 ≤ start) (hN : 0 < N) (hr : start + N ≤ (all_samples.length : Int)) :
    ((window all_samples start N).length : Int) = N ∧
    (∀ x : IMUSample ℝ, data x = ![x.ax, x.ay, x.az, x.gx, x.gy, x.gz]) ∧
    ∃ m, calculate_metrics Real.sqrt all_samples start N = some m ∧
      ∀ j : Fin 6,
        m.mu j = channel_sum (window all_samples start N) j / (N : ℝ) ∧
        m.rms j = Real.sqrt (channel_sum_sq (window all_samples start N) j / (N : ℝ)) ∧
        m.sigma j = Real.sqrt (channel_sum_sq (window all_samples start N) j / (N : ℝ)
          - (m.mu j) ^ 2) := by
  obtain ⟨m, hm, -, -, h⟩ := calculate_metrics_real all_samples start N h0 hN hr
  refine ⟨(window_window all_samples start N h0 hN.le hr).1, fun _ => rfl, m, hm, ?_⟩
  intro j
  exact ⟨(h j).1, (h j).2.1, (h j).2.2.1⟩

theorem metrics_formulas_witness :
    (0 : Int) ≤ 1 ∧ (0 : Int) < 2 ∧ (1 : Int) + 2 ≤ ((example_samples ℝ).length : Int) ∧
    (((window (example_samples ℝ) 1 2).length : Int) = 2 ∧
    (∀ x : IMUSample ℝ, data x = ![x.ax, x.ay, x.az, x.gx, x.gy, x.gz]) ∧
    ∃ m, calculate_metrics Real.sqrt (example_samples ℝ) 1 2 = some m ∧
      ∀ j : Fin 6,
        m.mu j = channel_sum (window (example_samples ℝ) 1 2) j / ((2 : Int) : ℝ) ∧
        m.rms j = Real.sqrt (channel_sum_sq (window (example_samples ℝ) 1 2) j / ((2 : Int) : ℝ)) ∧
        m.sigma j = Real.sqrt (channel_sum_sq (window (example_samples ℝ) 1 2) j / ((2 : Int) : ℝ)
          - (m.mu j) ^ 2)) :=
  ⟨by decide, by decide, by decide,
    metrics_formulas (example_samples ℝ) 1 2 (by decide) (by decide) (by decide)⟩

/-- A channel is constant over a non-empty window exactly when every sample
equals the channel's mean. -/
theorem constant_iff_eq_mean (w : List (IMUSample ℝ)) (j : Fin 6) (hw : 0 < w.length) :
    (∀ x ∈ w, ∀ y ∈ w, data x j = data y j)
      ↔ ∀ x ∈ w, data x j = channel_sum w j / (w.length : ℝ) := by
  have hne : (w.length : ℝ) ≠ 0 := by exact_mod_cast hw.ne'
  constructor
  · intro h x hx
    have hsum := channel_sum_of_constant w j (data x j) (fun y hy => h y hy x hx)
    rw [hsum]
    field_simp
  · intro h x hx y hy
    rw [h x hx, h y hy]

/-- C5: `accel_energy` is the sum over the window of `ax² + ay² + az²`, not
divided by `N`; it depends on the acceleration channels only, and it is `0` when
every sample of the window has `ax = ay = az = 0`. -/
theorem accel_energy_sum {α : Type} [Field α] (sqrt : α → α)
    (all_samples : List (IMUSample α)) (start N : Int)
    (h0 : 0 ≤ start) (hN : 0 ≤ N) (hr : start + N ≤ (all_samples.length : Int)) :
    ∃ m, calculate_metrics sqrt all_samples start N = some m ∧
      m.energy_accel_mag
        = ((window all_samples start N).map (fun x => x.ax ^ 2 + x.ay ^ 2 + x.az ^ 2)).sum ∧
      (∀ (other : List (IMUSample α)) (start2 : Int) (m2 : WindowMetrics α),
        0 ≤ start2 → start2 + N ≤ (other.length : Int) →
        (window other start2 N).map accel = (window all_samples start N).map accel →
        calculate_metrics sqrt other start2 N = some m2 →
        m2.energy_accel_mag = m.energy_accel_mag) ∧
      ((∀ x ∈ window all_samples start N, x.ax = 0 ∧ x.ay = 0 ∧ x.az = 0) →
        m.energy_accel_mag = 0) := by
  obtain ⟨m, hm, -, -, -, he⟩ :=
    calculate_metrics_closed_form sqrt all_samples start N h0 hN hr
  refine ⟨m, hm, he, ?_, ?_⟩
  · intro other start2 m2 h02 hr2 hacc hm2
    obtain ⟨m3, hm3, -, -, -, he3⟩ :=
      calculate_metrics_closed_form sqrt other start2 N h02 hN hr2
    rw [hm3] at hm2
    have h32 : m3 = m2 := Option.some.inj hm2
    rw [← h32, he3, he]
    exact accel_energy_eq_of_accel _ _ hacc
  · intro hz
    rw [he]
    exact accel_energy_of_zero _ hz

theorem accel_energy_sum_witness :
    (0 : Int) ≤ 1 ∧ (0 : Int) ≤ 2 ∧ (1 : Int) + 2 ≤ ((example_samples ℚ).length : Int) ∧
    ∃ m, calculate_metrics id (example_samples ℚ) 1 2 = some m ∧
      m.energy_accel_mag
        = ((window (example_samples ℚ) 1 2).map (fun x => x.ax ^ 2 + x.ay ^ 2 + x.az ^ 2)).sum ∧
      (∀ (other : List (IMUSample ℚ)) (start2 : Int) (m2 : WindowMetrics ℚ),
        0 ≤ start2 → start2 + 2 ≤ (other.length : Int) →
        (window other start2 2).map accel = (window (example_samples ℚ) 1 2).map accel →
        calculate_metrics id other start2 2 = some m2 →
        m2.energy_accel_mag = m.energy_accel_mag) ∧
      ((∀ x ∈ window (example_samples ℚ) 1 2, x.ax = 0 ∧ x.ay = 0 ∧ x.az = 0) →
        m.energy_accel_mag = 0) :=
  ⟨by decide, by decide, by decide,
    accel_energy_sum id (example_samples ℚ) 1 2 (by decide) (by decide) (by decide)⟩

/-- C8: on a window of `N > 0` samples every channel satisfies
`rms[j]^2 ≥ mean[j]^2`; the variance term `Q[j] / N - mean[j]^2`, to which the
square root defining `stddev[j]` is applied, is non-negative. -/
theorem rms_sq_ge_mean_sq (all_samples : List (IMUSample ℝ)) (start N : Int)
    (h0 : 0 ≤ start) (hN : 0 < N) (hr : start + N ≤ (all_samples.length : Int)) :
    ∃ m, calculate_metrics Real.sqrt all_samples start N = some m ∧
      ∀ j : Fin 6,
        (m.rms j) ^ 2 ≥ (m.mu j) ^ 2 ∧
        (m.rms j) ^ 2 - (m.mu j) ^ 2
          = channel_sum_sq (window all_samples start N) j / (N : ℝ) - (m.mu j) ^ 2 ∧
        0 ≤ channel_sum_sq (window all_samples start N) j / (N : ℝ) - (m.mu j) ^ 2 ∧
        m.sigma j = Real.sqrt (channel_sum_sq (window all_samples start N) j / (N : ℝ)
          - (m.mu j) ^ 2) := by
  obtain ⟨m, hm, -, -, h⟩ := calculate_metrics_real all_samples start N h0 hN hr
  refine ⟨m, hm, ?_⟩
  intro j
  obtain ⟨-, -, hsig, -, hnn, hsq⟩ := h j
  refine ⟨?_, by rw [hsq], hnn, hsig⟩
  rw [hsq]
  linarith

theorem rms_sq_ge_mean_sq_witness :
    (0 : Int) ≤ 1 ∧ (0 : Int) < 2 ∧ (1 : Int) + 2 ≤ ((example_samples ℝ).length : Int) ∧
    ∃ m, calculate_metrics Real.sqrt (example_samples ℝ) 1 2 = some m ∧
      ∀ j : Fin 6,
        (m.rms j) ^ 2 ≥ (m.mu j) ^ 2 ∧
        (m.rms j) ^ 2 - (m.mu j) ^ 2
          = channel_sum_sq (window (example_samples ℝ) 1 2) j / ((2 : Int) : ℝ) - (m.mu j) ^ 2 ∧
        0 ≤ channel_sum_sq (window (example_samples ℝ) 1 2) j / ((2 : Int) : ℝ) - (m.mu j) ^ 2 ∧
        m.sigma j = Real.sqrt (channel_sum_sq (window (example_samples ℝ) 1 2) j / ((2 : Int) : ℝ)
          - (m.mu j) ^ 2) :=
  ⟨by decide, by decide, by decide,
    rms_sq_ge_mean_sq (example_samples ℝ) 1 2 (by decide) (by decide) (by decide)⟩

/-- C9: on a window of `N > 0` samples, `rms[j]^2 = mean[j]^2` holds only when
`stddev[j] = 0` (and conversely), and `stddev[j] = 0` holds exactly when channel
`j` has the same value in all `N` samples of the window. -/
theorem rms_eq_mean_iff_constant (all_samples : List (IMUSample ℝ)) (start N : Int)
    (h0 : 0 ≤ start) (hN : 0 < N) (hr : start + N ≤ (all_samples.length : Int)) :
    ∃ m, calculate_metrics Real.sqrt all_samples start N = some m ∧
      ∀ j : Fin 6,
        ((m.rms j) ^ 2 = (m.mu j) ^ 2 → m.sigma j = 0) ∧
        (m.sigma j = 0 → (m.rms j) ^ 2 = (m.mu j) ^ 2) ∧
        (m.sigma j = 0 ↔
          ∀ x ∈ window all_samples start N, ∀ y ∈ window all_samples start N,
            data x j = data y j) := by
  obtain ⟨m, hm, hpos, hcast, h⟩ := calculate_metrics_real all_samples start N h0 hN hr
  refine ⟨m, hm, ?_⟩
  intro j
  obtain ⟨hmu, -, hsig, hvar, hnn, hsq⟩ := h j
  have hNne : (N : ℝ) ≠ 0 := by
    have : (0 : ℝ) < (N : ℝ) := by exact_mod_cast hN
    exact this.ne'
  have hzero : m.sigma j = 0
      ↔ channel_sum_sq (window all_samples start N) j / (N : ℝ) - (m.mu j) ^ 2 = 0 := by
    rw [hsig, Real.sqrt_eq_zero']
    exact ⟨fun hle => le_antisymm hle hnn, fun heq => heq.le⟩
  refine ⟨?_, ?_, ?_⟩
  · intro heq
    rw [hzero, ← hsq, heq, sub_self]
  · intro hs0
    have := hzero.mp hs0
    rw [hsq]
    linarith
  · rw [hzero, hvar, div_eq_zero_iff, or_iff_left hNne, sum_sq_dev_eq_zero_iff,
      constant_iff_eq_mean _ j hpos, hmu, hcast]

theorem rms_eq_mean_iff_constant_witness :
    (0 : Int) ≤ 1 ∧ (0 : Int) < 2 ∧ (1 : Int) + 2 ≤ ((example_samples ℝ).length : Int) ∧
    ∃ m, calculate_metrics Real.sqrt (example_samples ℝ) 1 2 = some m ∧
      ∀ j : Fin 6,
        ((m.rms j) ^ 2 = (m.mu j) ^ 2 → m.sigma j = 0) ∧
        (m.sigma j = 0 → (m.rms j) ^ 2 = (m.mu j) ^ 2) ∧
        (m.sigma j = 0 ↔
          ∀ x ∈ window (example_samples ℝ) 1 2, ∀ y ∈ window (example_samples ℝ) 1 2,
            data x j = data y j) :=
  ⟨by decide, by decide, by decide,
    rms_eq_mean_iff_constant (example_samples ℝ) 1 2 (by decide) (by decide) (by decide)⟩

/-- C10: on a window of `N > 0` samples the returned `stddev[j]` is the
population standard deviation `sqrt ((1 / N) * Σ (x_n[j] - mean[j])^2)`, the
deviation that divides by `N`. -/
theorem sigma_is_population_stddev (all_samples : List (IMUSample ℝ)) (start N : Int)
    (h0 : 0 ≤ start) (hN : 0 < N) (hr : start + N ≤ (all_samples.length : Int)) :
    ∃ m, calculate_metrics Real.sqrt all_samples start N = some m ∧
      ∀ j : Fin 6,
        m.sigma j = Real.sqrt ((1 / (N : ℝ)) *
          ((window all_samples start N).map (fun x => (data x j - m.mu j) ^ 2)).sum) := by
  obtain ⟨m, hm, -, -, h⟩ := calculate_metrics_real all_samples start N h0 hN hr
  refine ⟨m, hm, ?_⟩
  intro j
  obtain ⟨-, -, hsig, hvar, -, -⟩ := h j
  rw [hsig, hvar, one_div, inv_mul_eq_div]
  rfl

theorem sigma_is_population_stddev_witness :
    (0 : Int) ≤ 1 ∧ (0 : Int) < 2 ∧ (1 : Int) + 2 ≤ ((example_samples ℝ).length : Int) ∧
    ∃ m, calculate_metrics Real.sqrt (example_samples ℝ) 1 2 = some m ∧
      ∀ j : Fin 6,
        m.sigma j = Real.sqrt ((1 / ((2 : Int) : ℝ)) *
          ((window (example_samples ℝ) 1 2).map (fun x => (data x j - m.mu j) ^ 2)).sum) :=
  ⟨by decide, by decide, by decide,
    sigma_is_population_stddev (example_samples ℝ) 1 2 (by decide) (by decide) (by decide)⟩

/-! ## Maximality and coverage of the enumerated windows -/

/-- C14: the window count is maximal: for `T ≥ W` and stride `s > 0`,
`num_windows * s + W > T`, so no window at a later multiple of the stride fits;
the tail discarded after the last window, `T - ((num_windows - 1) * s + W)`,
equals `(T - W) mod s` and is smaller than the stride. -/
theorem num_windows_maximal (W s T : Int) (hs : 0 < s) (hT : W ≤ T) :
    num_windows W s T * s + W > T ∧
    (∀ i : Int, num_windows W s T ≤ i → T < start_index s i + W) ∧
    T - ((num_windows W s T - 1) * s + W) = (T - W) % s ∧
    0 ≤ T - ((num_windows W s T - 1) * s + W) ∧
    T - ((num_windows W s T - 1) * s + W) < s := by
  have hn := num_windows_eq_div W s T hs
  have hdm : s * ((T - W) / s) + (T - W) % s = T - W := Int.ediv_add_emod (T - W) s
  have hlt : (T - W) % s < s := Int.emod_lt_of_pos _ hs
  have hge : 0 ≤ (T - W) % s := Int.emod_nonneg _ hs.ne'
  have hq : 0 ≤ (T - W) / s := Int.ediv_nonneg (by omega) hs.le
  have hmul : (num_windows W s T - 1) * s = s * ((T - W) / s) := by
    rw [hn]; ring
  have hmul2 : num_windows W s T * s = s * ((T - W) / s) + s := by
    rw [hn]; ring
  refine ⟨by omega, ?_, by omega, by omega, by omega⟩
  intro i hi
  have h1 : num_windows W s T * s ≤ i * s := Int.mul_le_mul_of_nonneg_right hi hs.le
  unfold start_index
  omega

theorem num_windows_maximal_witness :
    (0 : Int) < 100 ∧ (200 : Int) ≤ 399 ∧
    (num_windows 200 100 399 * 100 + 200 > 399 ∧
    (∀ i : Int, num_windows 200 100 399 ≤ i → 399 < start_index 100 i + 200) ∧
    399 - ((num_windows 200 100 399 - 1) * 100 + 200) = (399 - 200) % 100 ∧
    0 ≤ 399 - ((num_windows 200 100 399 - 1) * 100 + 200) ∧
    399 - ((num_windows 200 100 399 - 1) * 100 + 200) < 100) :=
  ⟨by decide, by decide, num_windows_maximal 200 100 399 (by decide) (by decide)⟩

/-- C15: when `stride ≤ window_length` the enumerated windows leave no gap: for
`T ≥ W` a sample index `k` lies in some window `[i * s, i * s + W)` with
`0 ≤ i < num_windows` exactly when `0 ≤ k < (num_windows - 1) * s + W`; only the
discarded tail is in no window. -/
theorem windows_cover (W s T : Int) (hs : 0 < s) (hsW : s ≤ W) (hT : W ≤ T) (k : Int) :
    (0 ≤ k ∧ k < (num_windows W s T - 1) * s + W) ↔
      ∃ i : Int, 0 ≤ i ∧ i < num_windows W s T ∧
        start_index s i ≤ k ∧ k < start_index s i + W := by
  have hpos := num_windows_pos W s T hs hT
  constructor
  · rintro ⟨hk0, hk⟩
    have hdm : s * (k / s) + k % s = k := Int.ediv_add_emod k s
    have hlt : k % s < s := Int.emod_lt_of_pos _ hs
    have hge : 0 ≤ k % s := Int.emod_nonneg _ hs.ne'
    have hq : 0 ≤ k / s := Int.ediv_nonneg hk0 hs.le
    by_cases hc : k / s < num_windows W s T
    · refine ⟨k / s, hq, hc, ?_, ?_⟩
      · unfold start_index
        rw [Int.mul_comm]; omega
      · unfold start_index
        rw [Int.mul_comm]; omega
    · refine ⟨num_windows W s T - 1, by omega, by omega, ?_, ?_⟩
      · have h1 : (num_windows W s T - 1) * s ≤ (k / s) * s :=
          Int.mul_le_mul_of_nonneg_right (by omega) hs.le
        unfold start_index
        rw [Int.mul_comm (k / s) s] at h1
        omega
      · unfold start_index
        exact hk
  · rintro ⟨i, hi0, hi, hlo, hhi⟩
    have h1 : i * s ≤ (num_windows W s T - 1) * s :=
      Int.mul_le_mul_of_nonneg_right (by omega) hs.le
    have h2 : 0 ≤ i * s := Int.mul_nonneg hi0 hs.le
    unfold start_index at hlo hhi
    constructor <;> omega

theorem windows_cover_witness :
    (0 : Int) < 100 ∧ (100 : Int) ≤ 200 ∧ (200 : Int) ≤ 399 ∧
    ((0 ≤ (250 : Int) ∧ (250 : Int) < (num_windows 200 100 399 - 1) * 100 + 200) ↔
      ∃ i : Int, 0 ≤ i ∧ i < num_windows 200 100 399 ∧
        start_index 100 i ≤ 250 ∧ 250 < start_index 100 i + 200) :=
  ⟨by decide, by decide, by decide,
    windows_cover 200 100 399 (by decide) (by decide) (by decide) 250⟩

/-! ## Relations between the statistics and constant windows -/

theorem accel_energy_of_constant {α : Type} [Field α] (w : List (IMUSample α)) (a b c : α)
    (h : ∀ x ∈ w, x.ax = a ∧ x.ay = b ∧ x.az = c) :
    accel_energy w = (w.length : α) * (a ^ 2 + b ^ 2 + c ^ 2) := by
  induction w with
  | nil => simp [accel_energy]
  | cons x w ih =>
    obtain ⟨h1, h2, h3⟩ := h x (List.mem_cons_self x w)
    have hw := ih (fun y hy => h y (List.mem_cons_of_mem x hy))
    simp only [accel_energy, List.map_cons, List.sum_cons, List.length_cons,
      Nat.cast_succ] at hw ⊢
    rw [hw, h1, h2, h3]
    ring

/-- On an in-range real window of `N > 0` samples, a channel that has the value
`c` in every sample gets mean `c`, RMS `|c|` and sigma `0`. -/
theorem constant_channel_metrics (all_samples : List (IMUSample ℝ)) (start N : Int)
    (h0 : 0 ≤ start) (hN : 0 < N) (hr : start + N ≤ (all_samples.length : Int)) :
    ∃ m, calculate_metrics Real.sqrt all_samples start N = some m ∧
      m.energy_accel_mag = accel_energy (window all_samples start N) ∧
      (N : ℝ) = ((window all_samples start N).length : ℝ) ∧
      ∀ (j : Fin 6) (c : ℝ), (∀ x ∈ window all_samples start N, data x j = c) →
        m.mu j = c ∧ m.rms j = |c| ∧ m.sigma j = 0 := by
  obtain ⟨m, hm, hpos, hcast, h⟩ := calculate_metrics_real all_samples start N h0 hN hr
  obtain ⟨m2, hm2, -, -, -, he⟩ :=
    calculate_metrics_closed_form Real.sqrt all_samples start N h0 hN.le hr
  have hmm : m2 = m := by
    rw [hm] at hm2
    exact (Option.some.inj hm2).symm
  subst hmm
  refine ⟨m2, hm, he, hcast, ?_⟩
  intro j c hc
  obtain ⟨hmu, hrms, hsig, hvar, -, -⟩ := h j
  have hNne : (N : ℝ) ≠ 0 := by
    have : (0 : ℝ) < (N : ℝ) := by exact_mod_cast hN
    exact this.ne'
  have hmean : m2.mu j = c := by
    rw [hmu, channel_sum_of_constant _ j c hc, ← hcast]
    field_simp
  have hdev : sum_sq_dev (window all_samples start N) j (m2.mu j) = 0 := by
    rw [sum_sq_dev_eq_zero_iff, hmean]
    exact hc
  have hvar0 : channel_sum_sq (window all_samples start N) j / (N : ℝ) - (m2.mu j) ^ 2 = 0 := by
    rw [hvar, hdev, zero_div]
  refine ⟨hmean, ?_, ?_⟩
  · have hq : channel_sum_sq (window all_samples start N) j / (N : ℝ) = c ^ 2 := by
      rw [← hmean]; linarith
    rw [hrms, hq, Real.sqrt_sq_eq_abs]
  · rw [hsig, hvar0, Real.sqrt_zero]

/-- C16: on a window of `N > 0` samples the three statistics of every channel
satisfy `rms[j]^2 = mean[j]^2 + stddev[j]^2`; in particular `stddev[j] ≤ rms[j]`
and `|mean[j]| ≤ rms[j]`. -/
theorem rms_sq_eq_mean_sq_add_sigma_sq (all_samples : List (IMUSample ℝ)) (start N : Int)
    (h0 : 0 ≤ start) (hN : 0 < N) (hr : start + N ≤ (all_samples.length : Int)) :
    ∃ m, calculate_metrics Real.sqrt all_samples start N = some m ∧
      ∀ j : Fin 6,
        (m.rms j) ^ 2 = (m.mu j) ^ 2 + (m.sigma j) ^ 2 ∧
        m.sigma j ≤ m.rms j ∧
        |m.mu j| ≤ m.rms j := by
  obtain ⟨m, hm, -, -, h⟩ := calculate_metrics_real all_samples start N h0 hN hr
  refine ⟨m, hm, ?_⟩
  intro j
  obtain ⟨-, hrms, hsig, -, hnn, hsq⟩ := h j
  have hmusq : 0 ≤ (m.mu j) ^ 2 := sq_nonneg _
  refine ⟨?_, ?_, ?_⟩
  · rw [hsq, hsig, Real.sq_sqrt hnn]
    ring
  · rw [hsig, hrms]
    exact Real.sqrt_le_sqrt (by linarith)
  · rw [hrms]
    exact Real.abs_le_sqrt (by linarith)

theorem rms_sq_eq_mean_sq_add_sigma_sq_witness :
    (0 : Int) ≤ 1 ∧ (0 : Int) < 2 ∧ (1 : Int) + 2 ≤ ((example_samples ℝ).length : Int) ∧
    ∃ m, calculate_metrics Real.sqrt (example_samples ℝ) 1 2 = some m ∧
      ∀ j : Fin 6,
        (m.rms j) ^ 2 = (m.mu j) ^ 2 + (m.sigma j) ^ 2 ∧
        m.sigma j ≤ m.rms j ∧
        |m.mu j| ≤ m.rms j :=
  ⟨by decide, by decide, by decide,
    rms_sq_eq_mean_sq_add_sigma_sq (example_samples ℝ) 1 2 (by decide) (by decide)
      (by decide)⟩

/-- C11: on a window of `N > 0` samples that all have the same channel values
`v[0..5]`, `calculate_metrics` returns `mean[j] = v[j]`, `rms[j] = |v[j]|` and
`stddev[j] = 0` for every channel `j`. -/
theorem constant_window_metrics (all_samples : List (IMUSample ℝ)) (start N : Int)
    (h0 : 0 ≤ start) (hN : 0 < N) (hr : start + N ≤ (all_samples.length : Int))
    (v : Fin 6 → ℝ) (hv : ∀ x ∈ window all_samples start N, ∀ j : Fin 6, data x j = v j) :
    ∃ m, calculate_metrics Real.sqrt all_samples start N = some m ∧
      ∀ j : Fin 6, m.mu j = v j ∧ m.rms j = |v j| ∧ m.sigma j = 0 := by
  obtain ⟨m, hm, -, -, h⟩ := constant_channel_metrics all_samples start N h0 hN hr
  exact ⟨m, hm, fun j => h j (v j) (fun x hx => hv x hx j)⟩

theorem mem_window_replicate {α : Type} (n : Nat) (x y : IMUSample α) (start N : Int)
    (h : y ∈ window (List.replicate n x) start N) : y = x :=
  List.eq_of_mem_replicate (List.mem_of_mem_drop (List.mem_of_mem_take h))

theorem constant_window_metrics_witness :
    (0 : Int) ≤ 1 ∧ (0 : Int) < 2 ∧
    (1 : Int) + 2 ≤ ((List.replicate 3 (unit_ax_sample ℝ)).length : Int) ∧
    (∀ x ∈ window (List.replicate 3 (unit_ax_sample ℝ)) 1 2, ∀ j : Fin 6,
      data x j = (![1, 0, 0, 0, 0, 0] : Fin 6 → ℝ) j) ∧
    ∃ m, calculate_metrics Real.sqrt (List.replicate 3 (unit_ax_sample ℝ)) 1 2 = some m ∧
      ∀ j : Fin 6, m.mu j = (![1, 0, 0, 0, 0, 0] : Fin 6 → ℝ) j ∧
        m.rms j = |(![1, 0, 0, 0, 0, 0] : Fin 6 → ℝ) j| ∧ m.sigma j = 0 :=
  have hv : ∀ x ∈ window (List.replicate 3 (unit_ax_sample ℝ)) 1 2, ∀ j : Fin 6,
      data x j = (![1, 0, 0, 0, 0, 0] : Fin 6 → ℝ) j := by
    intro x hx j
    rw [mem_window_replicate 3 _ x 1 2 hx]
    rfl
  ⟨by decide, by decide, by decide, hv,
    constant_window_metrics (List.replicate 3 (unit_ax_sample ℝ)) 1 2 (by decide) (by decide)
      (by decide) ![1, 0, 0, 0, 0, 0] hv⟩

/-- C12: end to end, the program on 1000 samples that all have `ax = 1` and the
other channels `0` returns 9 records, each with `mean = [1,0,0,0,0,0]`,
`rms = [1,0,0,0,0,0]`, `stddev = [0,0,0,0,0,0]` and `accel_energy = 200`. -/
theorem end_to_end_scenario :
    ∃ results, main Real.sqrt (List.replicate 1000 (unit_ax_sample ℝ)) = Except.ok results ∧
      results.length = 9 ∧
      (results.length : Int) = num_windows WINDOW_SIZE STRIDE 1000 ∧
      ∀ m ∈ results,
        m.mu = ![1, 0, 0, 0, 0, 0] ∧ m.rms = ![1, 0, 0, 0, 0, 0] ∧
        m.sigma = ![0, 0, 0, 0, 0, 0] ∧ m.energy_accel_mag = 200 := by
  have hlenI : ((List.replicate 1000 (unit_ax_sample ℝ)).length : Int) = 1000 := by
    rw [List.length_replicate]; rfl
  have hnw : num_windows WINDOW_SIZE STRIDE 1000 = 9 := by
    rw [num_windows_eq_div _ _ _ (by decide)]; decide
  obtain ⟨results, hrun, hmap⟩ := run_eq_ok WINDOW_SIZE STRIDE Real.sqrt
    (List.replicate 1000 (unit_ax_sample ℝ)) (by decide) (by decide) (by rw [hlenI]; decide)
  obtain ⟨r2, hmap2, hlen, hent⟩ := mapper_eq_some WINDOW_SIZE STRIDE Real.sqrt
    (List.replicate 1000 (unit_ax_sample ℝ)) (by decide) (by decide)
  have hrr : r2 = results := by
    rw [hmap2] at hmap
    exact Option.some.inj hmap
  subst hrr
  rw [hlenI, hnw] at hlen hent
  have hlen9 : r2.length = 9 := hlen
  refine ⟨r2, hrun, hlen9, by rw [hlen9, hnw]; rfl, ?_⟩
  intro m hm
  obtain ⟨i, hi⟩ := List.mem_iff_getElem?.mp hm
  have hi9 : i < 9 := by
    have := (List.getElem?_eq_some.mp hi).1
    omega
  obtain ⟨hcalc, -⟩ := hent i hi9
  rw [hi] at hcalc
  obtain ⟨h1, h2⟩ := window_in_range WINDOW_SIZE STRIDE 1000 (by decide) (i : Int) (by omega)
    (by rw [hnw]; omega)
  rw [← hlenI] at h2
  obtain ⟨m3, hm3, he, hcast, hch⟩ := constant_channel_metrics
    (List.replicate 1000 (unit_ax_sample ℝ)) (start_index STRIDE (i : Int)) WINDOW_SIZE h1
    (by decide) h2
  have hmm : m3 = m := by
    rw [hm3] at hcalc
    exact Option.some.inj hcalc
  subst hmm
  have hall : ∀ j : Fin 6, m3.mu j = data (unit_ax_sample ℝ) j ∧
      m3.rms j = |data (unit_ax_sample ℝ) j| ∧ m3.sigma j = 0 := by
    intro j
    apply hch j
    intro x hx
    rw [mem_window_replicate 1000 _ x _ _ hx]
  have henergy := accel_energy_of_constant
    (window (List.replicate 1000 (unit_ax_sample ℝ)) (start_index STRIDE (i : Int)) WINDOW_SIZE)
    1 0 0
    (by
      intro x hx
      rw [mem_window_replicate 1000 _ x _ _ hx]
      exact ⟨rfl, rfl, rfl⟩)
  refine ⟨?_, ?_, ?_, ?_⟩
  · funext j
    rw [(hall j).1]
    fin_cases j <;> rfl
  · funext j
    rw [(hall j).2.1]
    fin_cases j <;>
      first
      | (show |(1 : ℝ)| = 1; exact abs_one)
      | (show |(0 : ℝ)| = 0; exact abs_zero)
  · funext j
    rw [(hall j).2.2]
    fin_cases j <;> rfl
  · rw [he, henergy, ← hcast]
    simp [WINDOW_SIZE]

/-! ## The kernel on windows of other lengths -/

/-- C13, counterexample: asked for windows of length 199 and 0 of a 200-sample
sequence, lengths that differ from `WINDOW_SIZE`, the kernel does not fail: it
returns a record, for length 199 the one computed from the first 199 samples. -/
theorem kernel_accepts_other_lengths :
    (199 : Int) ≠ WINDOW_SIZE ∧ (0 : Int) ≠ WINDOW_SIZE ∧
    (∃ m, calculate_metrics Real.sqrt (List.replicate 200 (unit_ax_sample ℝ)) 0 199 = some m ∧
      m.mu 0 = 1 ∧ m.energy_accel_mag = 199) ∧
    (∃ m, calculate_metrics Real.sqrt (List.replicate 200 (unit_ax_sample ℝ)) 0 0 = some m) := by
  have hlenI : ((List.replicate 200 (unit_ax_sample ℝ)).length : Int) = 200 := by
    rw [List.length_replicate]; rfl
  refine ⟨by decide, by decide, ?_, ?_⟩
  · obtain ⟨m, hm, he, hcast, hch⟩ := constant_channel_metrics
      (List.replicate 200 (unit_ax_sample ℝ)) 0 199 (by decide) (by decide)
      (by rw [hlenI]; decide)
    have henergy := accel_energy_of_constant
      (window (List.replicate 200 (unit_ax_sample ℝ)) 0 199) 1 0 0
      (by
        intro x hx
        rw [mem_window_replicate 200 _ x _ _ hx]
        exact ⟨rfl, rfl, rfl⟩)
    refine ⟨m, hm, ?_, ?_⟩
    · refine (hch 0 1 ?_).1
      intro x hx
      rw [mem_window_replicate 200 _ x _ _ hx]
      rfl
    · rw [he, henergy, ← hcast]
      simp
  · exact ⟨_, calculate_metrics_in_range Real.sqrt _ 0 0 (by decide) (by decide)
      (by rw [hlenI]; decide)⟩

/-- C13, amended: the kernel has no length check.  For every `N ≥ 0`, equal to
the window length or not, whose `N` reads lie inside the sample sequence it
returns a record computed from exactly those `N` samples: the energy is their
sum of `ax² + ay² + az²` and, for `N > 0`, `mean = S / N`, `rms = sqrt (Q / N)`
and `stddev = sqrt (Q / N - mean²)`. -/
theorem kernel_returns_record_for_any_length {α : Type} [Field α] (sqrt : α → α)
    (all_samples : List (IMUSample α)) (start N : Int)
    (h0 : 0 ≤ start) (hN : 0 ≤ N) (hr : start + N ≤ (all_samples.length : Int)) :
    ∃ m, calculate_metrics sqrt all_samples start N = some m ∧
      ((window all_samples start N).length : Int) = N ∧
      m.energy_accel_mag = accel_energy (window all_samples start N) ∧
      (0 < N → ∀ j : Fin 6,
        m.mu j = channel_sum (window all_samples start N) j / (N : α) ∧
        m.rms j = sqrt (channel_sum_sq (window all_samples start N) j / (N : α)) ∧
        m.sigma j = sqrt (channel_sum_sq (window all_samples start N) j / (N : α)
          - (m.mu j) ^ 2)) := by
  obtain ⟨m, hm, hmu, hrms, hsig, he⟩ :=
    calculate_metrics_closed_form sqrt all_samples start N h0 hN hr
  refine ⟨m, hm, (window_window all_samples start N h0 hN hr).1, he, ?_⟩
  intro _ j
  refine ⟨hmu j, hrms j, ?_⟩
  rw [hsig j, hmu j]

theorem kernel_returns_record_for_any_length_witness :
    (0 : Int) ≤ 0 ∧ (0 : Int) ≤ 2 ∧ (0 : Int) + 2 ≤ ((example_samples ℚ).length : Int) ∧
    (2 : Int) ≠ WINDOW_SIZE ∧
    ∃ m, calculate_metrics id (example_samples ℚ) 0 2 = some m ∧
      ((window (example_samples ℚ) 0 2).length : Int) = 2 ∧
      m.energy_accel_mag = accel_energy (window (example_samples ℚ) 0 2) ∧
      ((0 : Int) < 2 → ∀ j : Fin 6,
        m.mu j = channel_sum (window (example_samples ℚ) 0 2) j / ((2 : Int) : ℚ) ∧
        m.rms j = id (channel_sum_sq (window (example_samples ℚ) 0 2) j / ((2 : Int) : ℚ)) ∧
        m.sigma j = id (channel_sum_sq (window (example_samples ℚ) 0 2) j / ((2 : Int) : ℚ)
          - (m.mu j) ^ 2)) :=
  ⟨by decide, by decide, by decide, by decide,
    kernel_returns_record_for_any_length id (example_samples ℚ) 0 2 (by decide) (by decide)
      (by decide)⟩

end ImuAnalysis
